import Mathlib

/-!
Verification development for the updown-15-polymarket trading bot.

Shallow embedding of the core components referenced by the spec:
the paper-mode fill simulator (`TradingBot._simulate_fill`), the paper
order placement (`TradingBot._paper_place_order`), the weighted consensus
price (`AlphaMonitor.get_weighted_global_price`), the reconnect backoff of
the exchange feed loops (`AlphaMonitor._stream_exchange`), the order-book
delta application of the Kalshi WS loop (`AlphaMonitor._kalshi_loop`), the
settlement projection (`AlphaMonitor.get_settlement_projection`), the
fair-value model (`AlphaMonitor.get_fair_value`), the exit-rule cascade of
`TradingBot._cycle`, and the fill-chasing retry (`TradingBot._wait_and_retry`).

Python floats are modelled as exact rationals (or reals where the code uses
`math.exp` / `math.sqrt`); Python ints as `Int`.
-/

/-- Truncation toward zero, as Python's `int(...)` applied to a float. -/
def ratTrunc (x : ℚ) : ℤ := if 0 ≤ x then x.floor else x.ceil

/-- Python 3 `round` to an integer: round half to even (banker's rounding). -/
def pyRound (x : ℚ) : ℤ :=
  if x - x.floor < 1/2 then x.floor
  else if 1/2 < x - x.floor then x.floor + 1
  else if x.floor % 2 = 0 then x.floor else x.floor + 1

/-- Stable insertion sort with a strict comparison, mirroring the stable
semantics of Python's `list.sort`: an element is inserted before the first
element it strictly precedes, so equal keys keep their original order. -/
def insertStable {α : Type} (lt : α → α → Bool) (a : α) : List α → List α
  | [] => [a]
  | b :: l => if lt a b then a :: b :: l else b :: insertStable lt a l

/-- Stable sort built from `insertStable` (same output as Python's stable sort). -/
def sortStable {α : Type} (lt : α → α → Bool) : List α → List α
  | [] => []
  | a :: l => insertStable lt a (sortStable lt l)

/-- Binary-contract side (Kalshi YES / NO). -/
inductive Side where
  | yes
  | no
deriving DecidableEq, Repr

/-- Order action. -/
inductive OrderAction where
  | buy
  | sell
deriving DecidableEq, Repr

/-- Two-sided order book: lists of (price in cents, resting quantity). -/
structure Orderbook where
  yes : List (ℤ × ℤ)
  no : List (ℤ × ℤ)
deriving DecidableEq, Repr

/-- Crossing levels selected and converted by `_simulate_fill` (trader.py
lines 387-408): for a buy the opposing side's levels are converted to
same-side prices `100 - p` and kept when `p >= 100 - limit`; for a sell the
own side's levels are kept raw when `p >= limit`. -/
def crossingLevels (ob : Orderbook) (action : OrderAction) (side : Side)
    (limitPriceCents : ℤ) : List (ℤ × ℤ) :=
  match action, side with
  | .buy, .yes =>
      (ob.no.filter fun pq => 100 - limitPriceCents ≤ pq.1).map
        fun pq => (100 - pq.1, pq.2)
  | .buy, .no =>
      (ob.yes.filter fun pq => 100 - limitPriceCents ≤ pq.1).map
        fun pq => (100 - pq.1, pq.2)
  | .sell, .yes => ob.yes.filter fun pq => limitPriceCents ≤ pq.1
  | .sell, .no => ob.no.filter fun pq => limitPriceCents ≤ pq.1

/-- Sorted crossing levels (trader.py lines 410-414): cheapest-first for
buys, best-price-first (descending) for sells. -/
def sortedLevels (ob : Orderbook) (action : OrderAction) (side : Side)
    (limitPriceCents : ℤ) : List (ℤ × ℤ) :=
  match action with
  | .buy => sortStable (fun a b => decide (a.1 < b.1))
      (crossingLevels ob action side limitPriceCents)
  | .sell => sortStable (fun a b => decide (b.1 < a.1))
      (crossingLevels ob action side limitPriceCents)

/-- Greedy walk of the sorted levels (trader.py lines 416-424): consume up
to `max 1 (int (qty * fillFraction))` of each level until `quantity` is
filled; returns (filled, fills). -/
def walkLevels (fillFraction : ℚ) (quantity : ℤ) :
    List (ℤ × ℤ) → ℤ → ℤ × List (ℤ × ℤ)
  | [], filled => (filled, [])
  | (p, q) :: rest, filled =>
      if quantity ≤ filled then (filled, [])
      else
        let available := max 1 (ratTrunc (q * fillFraction))
        let take := min available (quantity - filled)
        let next := walkLevels fillFraction quantity rest (filled + take)
        (next.1, (p, take) :: next.2)

/-- `TradingBot._simulate_fill` (trader.py lines 374-430). Returns
(filled quantity, average price in cents rounded as Python, fills list).
`fillFraction` is the configured `PAPER_FILL_FRACTION`. -/
def simulateFill (fillFraction : ℚ) (ob : Orderbook) (action : OrderAction)
    (side : Side) (limitPriceCents quantity : ℤ) : ℤ × ℤ × List (ℤ × ℤ) :=
  let levels := sortedLevels ob action side limitPriceCents
  let w := walkLevels fillFraction quantity levels 0
  if w.1 = 0 then (0, 0, [])
  else
    let avg : ℚ := (w.2.map fun pq => (pq.1 * pq.2 : ℚ)).sum / (w.1 : ℚ)
    (w.1, pyRound avg, w.2)

/-- Result of a (paper) order placement. -/
structure OrderResult where
  status : String
  filledCount : ℤ
  remainingCount : ℤ
deriving DecidableEq, Repr

/-- Paper position entry for one ticker (`self._paper_positions[ticker]`). -/
structure PaperPos where
  side : Side
  quantity : ℤ
  avgPriceCents : ℚ
  marketExposureCents : ℚ
deriving DecidableEq, Repr

/-- Outcome of `_paper_place_order`: the returned order (none = rejected),
the new paper balance (dollars) and the new position entry for the ticker. -/
structure PaperOutcome where
  result : Option OrderResult
  balance : ℚ
  pos : Option PaperPos
deriving DecidableEq, Repr

/-- Position-accumulation step of `_paper_place_order` (trader.py lines
462-482): same-side buys accumulate at the actual fill price, opposite-side
buys net down the existing position and delete it at quantity 0. -/
def paperAccumulate (pos : Option PaperPos) (side : Side) (avgPrice : ℚ)
    (filledQty : ℤ) (costCents : ℚ) : Option PaperPos :=
  match pos with
  | some p =>
      if p.side = side then
        let oldTotal := p.avgPriceCents * p.quantity
        let newTotal := avgPrice * filledQty
        some { p with
          quantity := p.quantity + filledQty,
          avgPriceCents := (oldTotal + newTotal) / (p.quantity + filledQty),
          marketExposureCents := p.marketExposureCents + costCents }
      else
        let reduce := min filledQty p.quantity
        if p.quantity - reduce ≤ 0 then none
        else some { p with
          quantity := p.quantity - reduce,
          marketExposureCents := p.marketExposureCents - p.avgPriceCents * reduce }
  | none =>
      some { side := side, quantity := filledQty, avgPriceCents := avgPrice,
             marketExposureCents := costCents }

/-- `TradingBot._paper_place_order` (trader.py lines 432-501), for the one
ticker being traded. Simulates a buy against the order book: a zero fill
rests on the book; a fill whose cost exceeds the balance is reduced to the
affordable quantity (or rejected when nothing is affordable); otherwise the
balance is debited and the position accumulated. -/
def paperPlaceOrder (fillFraction : ℚ) (ob : Orderbook) (side : Side)
    (priceCents quantity : ℤ) (balance : ℚ) (pos : Option PaperPos) :
    PaperOutcome :=
  let sim := simulateFill fillFraction ob .buy side priceCents quantity
  let filledQty := sim.1
  let avgPrice := sim.2.1
  if filledQty = 0 then
    { result := some ⟨"resting", 0, quantity⟩, balance := balance, pos := pos }
  else
    let costDollars : ℚ := (avgPrice * filledQty : ℚ) / 100
    if balance < costDollars then
      let affordable := if 0 < avgPrice then ratTrunc (balance * 100 / (avgPrice : ℚ)) else 0
      if affordable ≤ 0 then
        { result := none, balance := balance, pos := pos }
      else
        let cost2 : ℚ := (avgPrice * affordable : ℚ) / 100
        { result := some ⟨if quantity - affordable = 0 then "filled" else "partial",
            affordable, quantity - affordable⟩,
          balance := balance - cost2,
          pos := paperAccumulate pos side avgPrice affordable (avgPrice * affordable) }
    else
      { result := some ⟨if quantity - filledQty = 0 then "filled" else "partial",
          filledQty, quantity - filledQty⟩,
        balance := balance - costDollars,
        pos := paperAccumulate pos side avgPrice filledQty (avgPrice * filledQty) }

/-- The six configured exchanges (alpha_engine.py `EXCHANGE_CONFIG`). -/
inductive Exchange where
  | binance
  | bybit
  | coinbase
  | okx
  | kraken
  | deribit
deriving DecidableEq, Repr

instance : Fintype Exchange :=
  ⟨⟨{.binance, .bybit, .coinbase, .okx, .kraken, .deribit}, by decide⟩,
    fun x => by cases x <;> decide⟩

/-- Static venue weights from `EXCHANGE_CONFIG` (alpha_engine.py lines 52-101). -/
def weight : Exchange → ℚ
  | .binance => 35/100
  | .bybit => 20/100
  | .coinbase => 18/100
  | .okx => 12/100
  | .kraken => 8/100
  | .deribit => 7/100

/-- Role flag: settlement exchanges are those with role `settlement`
(coinbase and kraken); the rest are lead exchanges. -/
def isSettlement : Exchange → Bool
  | .coinbase => true
  | .kraken => true
  | _ => false

/-- `AlphaMonitor.get_weighted_global_price` (alpha_engine.py lines 546-554):
filter venues with a positive last price, return 0 if none (or if their
total weight is nonpositive), else the weighted mean. -/
def getWeightedGlobalPrice (prices : Exchange → ℚ) : ℚ :=
  let valid := Finset.univ.filter fun e => 0 < prices e
  if valid = ∅ then 0
  else
    let totalWeight := ∑ e ∈ valid, weight e
    if totalWeight ≤ 0 then 0
    else (∑ e ∈ valid, prices e * weight e) / totalWeight

/-- Specification-side definition (spec section 4.3 and section 8): the
weight-normalized mean over exactly the venues with a strictly positive
last price, and 0 when no venue is live. -/
def specWeightedMean (prices : Exchange → ℚ) : ℚ :=
  let live := Finset.univ.filter fun e => 0 < prices e
  if live = ∅ then 0
  else (∑ e ∈ live, prices e * weight e) / ∑ e ∈ live, weight e

/-- Reconnect backoff state evolution of `AlphaMonitor._stream_exchange`
(alpha_engine.py lines 220-277): `delay` starts at `RECONNECT_BASE_DELAY`
(1.0 s), each failure sleeps the current delay (plus jitter) and then
doubles it capped at `RECONNECT_MAX_DELAY` (30.0 s); a successful connect
resets it to the base delay. `delaySeq n` is the delay slept on the
(n+1)-th consecutive failure since the last reset. -/
def reconnectBaseDelay : ℚ := 1

def reconnectMaxDelay : ℚ := 30

def reconnectJitterFactor : ℚ := 1/2

def delaySeq : ℕ → ℚ
  | 0 => reconnectBaseDelay
  | n + 1 => min (delaySeq n * 2) reconnectMaxDelay

/-- Sleep (before jitter) preceding the retry that follows the N-th
consecutive failure, N ≥ 1 (line 268 sleeps the current `delay`; line 269
then doubles it). -/
def sleepBeforeRetry (consecutiveFailures : ℕ) : ℚ :=
  delaySeq (consecutiveFailures - 1)

/-- Jitter added to a sleep (line 267): `delay * RECONNECT_JITTER * random()`
with `random() ∈ [0, 1)`. -/
def jitterOf (delay r : ℚ) : ℚ := delay * reconnectJitterFactor * r

/-- Delay value after a successful reconnect (line 239). -/
def delayAfterSuccess : ℚ := reconnectBaseDelay

/-- One side of a Kalshi order book, as the Python dict built at
alpha_engine.py line 448: a partial map from price to resting quantity. -/
def BookSide : Type := ℤ → Option ℤ

/-- Application of one delta entry (alpha_engine.py lines 449-453):
quantity 0 removes the price level, any other quantity inserts/replaces it. -/
def applyDeltaEntry (b : BookSide) (e : ℤ × ℤ) : BookSide :=
  fun x =>
    if e.2 = 0 then (if x = e.1 then none else b x)
    else (if x = e.1 then some e.2 else b x)

/-- Application of a full delta list for one side, in message order. -/
def applyDeltas (b : BookSide) (deltas : List (ℤ × ℤ)) : BookSide :=
  deltas.foldl applyDeltaEntry b

/-- Last delta entry for a given price (the one whose effect survives). -/
def lastEntry : List (ℤ × ℤ) → ℤ → Option ℤ
  | [], _ => none
  | e :: rest, p =>
      match lastEntry rest p with
      | some q => some q
      | none => if e.1 = p then some e.2 else none

/-- A two-sided book for one instrument. -/
structure KalshiBook where
  yes : BookSide
  no : BookSide

/-- The `orderbook_delta` branch of `AlphaMonitor._kalshi_loop`
(alpha_engine.py lines 440-457): a delta for a ticker with no prior
snapshot is dropped; otherwise both sides are merged. -/
def handleDeltaMsg (store : String → Option KalshiBook) (ticker : String)
    (yesDeltas noDeltas : List (ℤ × ℤ)) : String → Option KalshiBook :=
  match store ticker with
  | none => store
  | some bk => fun t =>
      if t = ticker then
        some ⟨applyDeltas bk.yes yesDeltas, applyDeltas bk.no noDeltas⟩
      else store t

/-- Ordered list of settlement exchanges used to pick the reference price in
`get_settlement_projection` (alpha_engine.py lines 670-673; the Python code
iterates the set `SETTLEMENT_EXCHANGES`, whose members are coinbase and
kraken — the iteration order is fixed here as configuration order). -/
def settlementOrder : List Exchange := [.coinbase, .kraken]

/-- Reference price selection: first settlement exchange with a positive
price, falling back to the legacy coinbase price (line 675). -/
def settlementRefPrice (prices : Exchange → ℚ) (coinbasePrice : ℚ) : ℚ :=
  match settlementOrder.find? (fun e => decide (0 < prices e)) with
  | some e => prices e
  | none => coinbasePrice

/-- `AlphaMonitor.get_settlement_projection` (alpha_engine.py lines
660-696). `minutePrices` is `self._minute_prices` (timestamp, price) and
`now` the current time. Returns True (assume strike met) when there is no
data, else whether the elapsed-average blended with the reference price
reaches the strike. -/
def getSettlementProjection (prices : Exchange → ℚ) (coinbasePrice : ℚ)
    (minutePrices : List (ℚ × ℚ)) (now strikePrice secondsRemaining : ℚ) :
    Bool :=
  let refPrice := settlementRefPrice prices coinbasePrice
  match minutePrices with
  | [] => true
  | first :: _ =>
      if refPrice ≤ 0 then true
      else
        let elapsedPrices := minutePrices.map Prod.snd
        let avgSoFar := elapsedPrices.sum / elapsedPrices.length
        let elapsedSeconds := max (now - first.1) 1
        let totalWindow := elapsedSeconds + max secondsRemaining 0
        let totalWindow := if totalWindow ≤ 0 then 1 else totalWindow
        let projectedAvg :=
          (avgSoFar * elapsedSeconds + refPrice * max secondsRemaining 0)
            / totalWindow
        decide (strikePrice ≤ projectedAvg)

/-- Clamp of the fair probability (alpha_engine.py line 865):
`max(0.01, min(0.99, p))`. -/
noncomputable def clampProb (p : ℝ) : ℝ := max (1/100) (min (99/100) p)

/-- Logistic conversion (alpha_engine.py line 861):
`1 / (1 + exp (-k * z))`. -/
noncomputable def logisticProb (k z : ℝ) : ℝ := 1 / (1 + Real.exp (-k * z))

/-- Blended settlement projection of `get_fair_value` (alpha_engine.py lines
823-845). `avgSettlement` is the mean of `_contract_settlement_prices` when
nonempty, else the fallback mean of live settlement-exchange prices (or the
consensus price when none is live). -/
noncomputable def fvAvgSettlement (gwp : ℝ) (settlementPrices : List ℝ)
    (liveSettlePrices : List ℝ) : ℝ :=
  match settlementPrices with
  | _ :: _ => settlementPrices.sum / settlementPrices.length
  | [] =>
      match liveSettlePrices with
      | _ :: _ => liveSettlePrices.sum / liveSettlePrices.length
      | [] => gwp

/-- Live-price weight (alpha_engine.py lines 840-842):
`min(0.85, seconds_remaining / (elapsed + seconds_remaining) + 0.3)`
with `elapsed = max(now - start, 1)`. -/
noncomputable def fvCurrentWeight (secondsRemaining contractStartTs now : ℝ) :
    ℝ :=
  min (85/100)
    (secondsRemaining / (max (now - contractStartTs) 1 + secondsRemaining)
      + 3/10)

/-- Projected settlement of `get_fair_value`: when time remains and the
contract window has started, blend the settlement average with the live
consensus, weighting the live price by `min 0.85 (rem / total + 0.3)`. -/
noncomputable def fvProjected (gwp avgSettlement secondsRemaining
    contractStartTs now : ℝ) : ℝ :=
  if 0 < secondsRemaining ∧ 0 < contractStartTs then
    (avgSettlement * (1 - fvCurrentWeight secondsRemaining contractStartTs now)
      + gwp * fvCurrentWeight secondsRemaining contractStartTs now)
  else avgSettlement

/-- Dollar volatility floor (alpha_engine.py lines 850-855): the realized
5-minute volatility (0.0001 when unavailable) scaled by the consensus price
and by `sqrt (max rem 1 / 5)`, floored at 1.0. -/
noncomputable def fvDollarVol (gwp vol5m secondsRemaining : ℝ) : ℝ :=
  max (gwp * (if 0 < vol5m then vol5m else 1/10000)
        * Real.sqrt (max secondsRemaining 1 / 5)) 1

/-- Distance of the projected settlement from the strike (alpha_engine.py
line 847), the quantity the claim calls the dollar distance. -/
noncomputable def fvSettlementVsStrike (gwp strike secondsRemaining : ℝ)
    (settlementPrices liveSettlePrices : List ℝ)
    (contractStartTs now : ℝ) : ℝ :=
  fvProjected gwp (fvAvgSettlement gwp settlementPrices liveSettlePrices)
    secondsRemaining contractStartTs now - strike

/-- Fair YES probability of `AlphaMonitor.get_fair_value` (alpha_engine.py
lines 809-872). `gwp` is the consensus output of
`get_weighted_global_price()` and `vol5m` the `volatility_5m` field of
`get_volatility()`, both supplied explicitly; `k` is `config.FAIR_VALUE_K`. -/
noncomputable def fairYesProb (k gwp strike secondsRemaining : ℝ)
    (settlementPrices liveSettlePrices : List ℝ)
    (contractStartTs now vol5m : ℝ) : ℝ :=
  if gwp ≤ 0 ∨ strike ≤ 0 then 1/2
  else
    clampProb (logisticProb k
      (fvSettlementVsStrike gwp strike secondsRemaining settlementPrices
          liveSettlePrices contractStartTs now
        / fvDollarVol gwp vol5m secondsRemaining))

/-- Exit rules of the per-cycle cascade in `TradingBot._cycle`
(trader.py lines 1347-1546), in source order below stop of hold-to-expiry. -/
inductive ExitRule where
  | stopLoss
  | edgeExit
  | hitAndRun
  | profitTake
  | freeRoll
deriving DecidableEq, Repr

/-- Priority rank of an exit rule (lower fires first). -/
def priorityOf : ExitRule → ℕ
  | .stopLoss => 0
  | .edgeExit => 1
  | .hitAndRun => 2
  | .profitTake => 3
  | .freeRoll => 4

/-- Inputs of one decision cycle's exit evaluation, as read by
`TradingBot._cycle` at lines 1349-1546: the held position, best book
prices, remaining time, per-contract exit state and the configuration
thresholds in force for the cycle. -/
structure CycleInput where
  tradingEnabled : Bool
  posQty : ℤ
  posExposureCents : ℚ
  bestBid : ℤ
  bestAsk : ℤ
  secsLeft : ℚ
  holdExpirySecs : ℚ
  stopLossCents : ℚ
  edgeExitEnabled : Bool
  hasAlpha : Bool
  hasStrike : Bool
  strike : ℚ
  fairYesCents : ℚ
  edgeExitThresholdCents : ℚ
  edgeExitMinHoldSecs : ℚ
  entryTs : ℚ
  nowTs : ℚ
  hitRunPct : ℚ
  profitTakePct : ℚ
  profitTakeMinSecs : ℚ
  freeRollPrice : ℚ
  freeRolled : Bool

/-- Mark-to-market of the held position (trader.py line 1352). -/
def markToMarketExit (i : CycleInput) : ℚ :=
  if 0 < i.posQty then (i.bestBid * i.posQty : ℤ)
  else if i.posQty < 0 then ((100 - i.bestAsk) * |i.posQty| : ℤ)
  else 0

/-- Clamped sell price / current value (trader.py lines 1356-1358). -/
def sellPriceOf (i : CycleInput) : ℤ :=
  max 1 (min 99 (if 0 < i.posQty then i.bestBid else 100 - i.bestAsk))

/-- Unrealized loss per contract (trader.py line 1368). -/
def lossPerContract (i : CycleInput) : ℚ :=
  (i.posExposureCents - markToMarketExit i) / (|i.posQty| : ℤ)

/-- Average cost per contract (trader.py line 1450). -/
def avgCostOf (i : CycleInput) : ℚ :=
  if 0 < |i.posQty| then i.posExposureCents / (|i.posQty| : ℤ) else 0

/-- Percentage gain from entry (trader.py line 1451). -/
def gainPctOf (i : CycleInput) : ℚ :=
  if 0 < avgCostOf i then
    ((sellPriceOf i : ℚ) - avgCostOf i) / avgCostOf i * 100
  else 0

/-- Direction-aware remaining edge for the edge-exit rule (trader.py lines
1402-1405). -/
def remainingEdgeOf (i : CycleInput) : ℚ :=
  if 0 < i.posQty then i.fairYesCents - (i.bestBid : ℤ)
  else (i.bestAsk : ℤ) - i.fairYesCents

/-- Time-decayed edge-exit threshold (trader.py lines 1407-1408). -/
def edgeThresholdOf (i : CycleInput) : ℚ :=
  i.edgeExitThresholdCents * min 1 (max 0 (i.secsLeft / 900))

/-- Stop-loss eligibility (trader.py lines 1367-1369). -/
def stopLossElig (i : CycleInput) : Prop :=
  0 < i.stopLossCents ∧ i.stopLossCents ≤ lossPerContract i

/-- Edge-exit eligibility (trader.py lines 1398-1412). -/
def edgeExitElig (i : CycleInput) : Prop :=
  i.edgeExitEnabled = true ∧ i.hasAlpha = true ∧ i.hasStrike = true ∧
  0 < i.strike ∧ remainingEdgeOf i ≤ edgeThresholdOf i ∧
  i.edgeExitMinHoldSecs ≤ i.nowTs - i.entryTs

/-- Hit-and-run eligibility (trader.py line 1454). -/
def hitRunElig (i : CycleInput) : Prop :=
  0 < i.hitRunPct ∧ i.hitRunPct ≤ gainPctOf i

/-- Profit-take eligibility (trader.py line 1485). -/
def profitTakeElig (i : CycleInput) : Prop :=
  i.profitTakePct ≤ gainPctOf i ∧ i.profitTakeMinSecs < i.secsLeft

/-- Free-roll eligibility (trader.py lines 1516-1518). -/
def freeRollElig (i : CycleInput) : Prop :=
  (i.freeRollPrice : ℚ) ≤ (sellPriceOf i : ℚ) ∧ i.freeRolled = false ∧
  2 ≤ |i.posQty|

instance (i : CycleInput) : Decidable (stopLossElig i) := by
  unfold stopLossElig; infer_instance

instance (i : CycleInput) : Decidable (edgeExitElig i) := by
  unfold edgeExitElig; infer_instance

instance (i : CycleInput) : Decidable (hitRunElig i) := by
  unfold hitRunElig; infer_instance

instance (i : CycleInput) : Decidable (profitTakeElig i) := by
  unfold profitTakeElig; infer_instance

instance (i : CycleInput) : Decidable (freeRollElig i) := by
  unfold freeRollElig; infer_instance

/-- Eligibility of one exit rule on a cycle's inputs. -/
def eligibleFor (i : CycleInput) : ExitRule → Prop
  | .stopLoss => stopLossElig i
  | .edgeExit => edgeExitElig i
  | .hitAndRun => hitRunElig i
  | .profitTake => profitTakeElig i
  | .freeRoll => freeRollElig i

/-- The exit rule that fires (if any) in one decision cycle, mirroring the
early-return cascade of `TradingBot._cycle` lines 1349-1546: no sell without
a held position and trading enabled; inside the hold-to-expiry window the
cycle returns before any sell; otherwise the first eligible rule in source
order fires and the cycle returns. -/
def exitDecision (i : CycleInput) : Option ExitRule :=
  if i.posQty = 0 ∨ i.tradingEnabled = false then none
  else if i.secsLeft < i.holdExpirySecs then none
  else if stopLossElig i then some .stopLoss
  else if edgeExitElig i then some .edgeExit
  else if hitRunElig i then some .hitAndRun
  else if profitTakeElig i then some .profitTake
  else if freeRollElig i then some .freeRoll
  else none

/-- Escalating retry price of `_wait_and_retry` (trader.py lines 876-894):
attempt 1 prices at the (rounded-up) midpoint of the spread, attempt 2
two-thirds of the way toward the far side, attempt 3 fully crosses; NO-side
prices work in `100 - yes` space; the result is clamped to [1, 99].
Python floor division is `Int.fdiv`. -/
def retryPrice (side : Side) (attempt : ℕ) (curBid curAsk : ℤ) : ℤ :=
  let raw :=
    match side with
    | .yes =>
        if attempt = 1 then Int.fdiv (curBid + curAsk + 1) 2
        else if attempt = 2 then curBid + Int.fdiv ((curAsk - curBid) * 2) 3
        else curAsk
    | .no =>
        if attempt = 1 then Int.fdiv ((100 - curAsk) + (100 - curBid) + 1) 2
        else if attempt = 2 then
          (100 - curAsk) + Int.fdiv (((100 - curBid) - (100 - curAsk)) * 2) 3
        else 100 - curBid
  max 1 (min 99 raw)

/-- Environment of one chase attempt: the freshly re-fetched book's best
bid/ask (trader.py lines 866-873) and the outcome of the retried order
(none = rejected; otherwise (filled_count, remaining_count)). -/
structure ChaseEnv where
  curBid : ℤ
  curAsk : ℤ
  result : Option (ℤ × ℤ)

/-- One retry action: the sleep taken before it (always 1 second, line 863),
the attempt number, the limit price and the quantity placed. -/
structure ChaseAction where
  sleepSecs : ℚ
  attempt : ℕ
  price : ℤ
  qty : ℤ
deriving DecidableEq, Repr

/-- Body of the paper-mode chase loop (trader.py lines 862-905): up to
`fuel` further attempts starting at `attempt`, re-pricing from the fresh
book of each attempt, stopping on rejection or full fill. -/
def chaseGo (side : Side) (envs : ℕ → ChaseEnv) :
    ℕ → ℕ → ℤ → List ChaseAction
  | 0, _, _ => []
  | fuel + 1, attempt, remaining =>
      let env := envs attempt
      let price := retryPrice side attempt env.curBid env.curAsk
      ⟨1, attempt, price, remaining⟩ ::
        match env.result with
        | none => []
        | some fr =>
            if fr.2 ≤ 0 then []
            else chaseGo side envs fuel (attempt + 1) fr.2

/-- `TradingBot._wait_and_retry`, paper branch (trader.py lines 855-905):
nothing to do when the initial order left no remaining quantity; otherwise
at most `max_retries = 3` attempts. -/
def waitAndRetry (side : Side) (initialRemaining : ℤ) (envs : ℕ → ChaseEnv) :
    List ChaseAction :=
  if initialRemaining ≤ 0 then [] else chaseGo side envs 3 1 initialRemaining

/-- Call-site guard of the chase (trader.py lines 1828-1832): the chase runs
only when an order was placed and it was not an aggressive spread-crossing
order (extreme momentum or alpha override). -/
def runsFillChase (orderPlaced extremeMomentum alphaOverride : Bool) : Bool :=
  orderPlaced && !extremeMomentum && !alphaOverride

/-- Price assignment of the spec scenario: the venues of total weight 0.60
(binance + coinbase + deribit) live at 100 and the venues of total weight
0.40 (bybit + okx + kraken) live at 110. -/
def scenarioPrices : Exchange → ℚ
  | .binance => 100
  | .coinbase => 100
  | .deribit => 100
  | _ => 110

/-- The raw book side consumed by `_simulate_fill` for a given action and
side (trader.py lines 388-408). -/
def rawLevels (ob : Orderbook) (action : OrderAction) (side : Side) :
    List (ℤ × ℤ) :=
  match action, side with
  | .buy, .yes => ob.no
  | .buy, .no => ob.yes
  | .sell, .yes => ob.yes
  | .sell, .no => ob.no

/-- A raw level crosses the requested limit: for buys the complementary
resting price satisfies `100 - limit <= p`, for sells `limit <= p`. -/
def rawLevelCrosses (action : OrderAction) (limit p : ℤ) : Prop :=
  match action with
  | .buy => 100 - limit ≤ p
  | .sell => limit ≤ p

/-- A fill price (after conversion) crosses the requested limit: at most
the limit for buys, at least the limit for sells. -/
def fillPriceOk (action : OrderAction) (limit p : ℤ) : Prop :=
  match action with
  | .buy => p ≤ limit
  | .sell => limit ≤ p

/-- Cycle input realizing simultaneous stop-loss and profit-take
eligibility outside the hold window: the spec scenario values (entry cost
50c, mark 30c, stop-loss 15c) with a permissive profit-take threshold. -/
def cycleInputBoth : CycleInput :=
  { tradingEnabled := true, posQty := 1, posExposureCents := 50,
    bestBid := 30, bestAsk := 31, secsLeft := 301, holdExpirySecs := 120,
    stopLossCents := 15, edgeExitEnabled := false, hasAlpha := false,
    hasStrike := false, strike := 0, fairYesCents := 0,
    edgeExitThresholdCents := 2, edgeExitMinHoldSecs := 30, entryTs := 0,
    nowTs := 0, hitRunPct := 0, profitTakePct := -50,
    profitTakeMinSecs := 300, freeRollPrice := 90, freeRolled := false }

theorem rat_floor_eq_intFloor (x : ℚ) : x.floor = ⌊x⌋ :=
  (Rat.floor_def' x).trans Rat.floor_def.symm

theorem ratTrunc_eq_intFloor (x : ℚ) (h : 0 ≤ x) : ratTrunc x = ⌊x⌋ := by
  rw [ratTrunc, if_pos h, rat_floor_eq_intFloor]

theorem pyRound_ge_floor (x : ℚ) : x.floor ≤ pyRound x := by
  unfold pyRound
  split
  · exact le_refl _
  · split
    · omega
    · split
      · exact le_refl _
      · omega

theorem one_le_pyRound (x : ℚ) (h : 1 ≤ x) : 1 ≤ pyRound x := by
  refine le_trans ?_ (pyRound_ge_floor x)
  rw [rat_floor_eq_intFloor]
  exact_mod_cast Int.le_floor.mpr (by exact_mod_cast h)

theorem pyRound_pos_of_one_le (x : ℚ) (h : 1 ≤ x) : (0 : ℚ) < pyRound x := by
  have := one_le_pyRound x h
  exact_mod_cast lt_of_lt_of_le Int.zero_lt_one this

theorem mem_insertStable {α : Type} (lt : α → α → Bool) (a x : α) (l : List α) :
    x ∈ insertStable lt a l ↔ x = a ∨ x ∈ l := by
  induction l with
  | nil => simp [insertStable]
  | cons b l ih =>
      simp only [insertStable]
      split
      · simp [List.mem_cons]
      · simp only [List.mem_cons, ih]
        tauto

theorem mem_sortStable {α : Type} (lt : α → α → Bool) (x : α) (l : List α) :
    x ∈ sortStable lt l ↔ x ∈ l := by
  induction l with
  | nil => simp [sortStable]
  | cons b l ih => simp [sortStable, mem_insertStable, ih]

theorem length_insertStable {α : Type} (lt : α → α → Bool) (a : α) (l : List α) :
    (insertStable lt a l).length = l.length + 1 := by
  induction l with
  | nil => simp [insertStable]
  | cons b l ih =>
      simp only [insertStable]
      split <;> simp [ih]

theorem length_sortStable {α : Type} (lt : α → α → Bool) (l : List α) :
    (sortStable lt l).length = l.length := by
  induction l with
  | nil => rfl
  | cons b l ih => simp [sortStable, length_insertStable, ih]

/-- Spec section 8 scenario: book side A = [(55, 10)] seen as NO resting at
45, limit buy side A at 60, quantity 5 fills 5 at average price 55 after
conversion. -/
theorem simulate_fill_scenario :
    simulateFill 1 ⟨[], [(45, 10)]⟩ .buy .yes 60 5 = (5, 55, [(55, 5)]) := by
  norm_num [simulateFill, sortedLevels, crossingLevels, sortStable, insertStable,
    walkLevels, ratTrunc, pyRound, Rat.floor]

theorem weight_pos : ∀ e : Exchange, 0 < weight e := by
  intro e
  cases e <;> norm_num [weight]

theorem sum_exchange (f : Exchange → ℚ) :
    ∑ e ∈ Finset.univ, f e =
      f .binance + f .bybit + f .coinbase + f .okx + f .kraken + f .deribit := by
  show ∑ e ∈ ({.binance, .bybit, .coinbase, .okx, .kraken, .deribit} :
      Finset Exchange), f e = _
  rw [Finset.sum_insert (by decide), Finset.sum_insert (by decide),
    Finset.sum_insert (by decide), Finset.sum_insert (by decide),
    Finset.sum_insert (by decide), Finset.sum_singleton]
  ring

/-- C3: for every assignment of per-venue last prices,
`get_weighted_global_price` equals the weight-normalized mean
Σ(price·weight)/Σ(weight) over exactly the venues with a strictly positive
last price, equals 0 when no venue has a positive price, and the scenario
with live weight 0.6 at 100 and live weight 0.4 at 110 yields 104. -/
theorem weighted_global_price_spec :
    (∀ prices : Exchange → ℚ,
      getWeightedGlobalPrice prices = specWeightedMean prices) ∧
    (∀ prices : Exchange → ℚ, (∃ e, 0 < prices e) →
      getWeightedGlobalPrice prices =
        (∑ e ∈ Finset.univ.filter fun e => 0 < prices e, prices e * weight e)
          / ∑ e ∈ Finset.univ.filter fun e => 0 < prices e, weight e) ∧
    (∀ prices : Exchange → ℚ, (∀ e, prices e ≤ 0) →
      getWeightedGlobalPrice prices = 0) ∧
    getWeightedGlobalPrice scenarioPrices = 104 := by
  have key : ∀ prices : Exchange → ℚ,
      getWeightedGlobalPrice prices = specWeightedMean prices := by
    intro prices
    unfold getWeightedGlobalPrice specWeightedMean
    by_cases hv : (Finset.univ.filter fun e => 0 < prices e) = ∅
    · simp [hv]
    · have hne : (Finset.univ.filter fun e => 0 < prices e).Nonempty :=
        Finset.nonempty_iff_ne_empty.mpr hv
      have hpos : 0 < ∑ e ∈ Finset.univ.filter fun e => 0 < prices e, weight e :=
        Finset.sum_pos (fun e _ => weight_pos e) hne
      simp [hv, not_le.mpr hpos]
  have live : ∀ prices : Exchange → ℚ, (∃ e, 0 < prices e) →
      getWeightedGlobalPrice prices =
        (∑ e ∈ Finset.univ.filter fun e => 0 < prices e, prices e * weight e)
          / ∑ e ∈ Finset.univ.filter fun e => 0 < prices e, weight e := by
    intro prices ⟨e, he⟩
    have hv : (Finset.univ.filter fun e => 0 < prices e) ≠ ∅ := by
      refine Finset.nonempty_iff_ne_empty.mp ⟨e, ?_⟩
      simp [Finset.mem_filter, he]
    rw [key]
    unfold specWeightedMean
    simp [hv]
  refine ⟨key, live, ?_, ?_⟩
  · intro prices h
    have hv : (Finset.univ.filter fun e => 0 < prices e) = ∅ := by
      refine Finset.filter_eq_empty_iff.mpr ?_
      intro e _
      exact not_lt.mpr (h e)
    unfold getWeightedGlobalPrice
    simp [hv]
  · rw [live scenarioPrices ⟨.binance, by norm_num [scenarioPrices]⟩]
    have hall : (Finset.univ.filter fun e => 0 < scenarioPrices e) =
        Finset.univ := by
      refine Finset.filter_true_of_mem ?_
      intro e _
      cases e <;> norm_num [scenarioPrices]
    rw [hall, sum_exchange, sum_exchange]
    norm_num [scenarioPrices, weight]

/-- C3 witness: the live branch of the theorem applied at the scenario
prices. -/
theorem weighted_global_price_spec_witness :
    getWeightedGlobalPrice scenarioPrices =
      (∑ e ∈ Finset.univ.filter fun e => 0 < scenarioPrices e,
          scenarioPrices e * weight e)
        / ∑ e ∈ Finset.univ.filter fun e => 0 < scenarioPrices e, weight e :=
  weighted_global_price_spec.2.1 scenarioPrices
    ⟨.binance, by norm_num [scenarioPrices]⟩

theorem delaySeq_closed (n : ℕ) :
    delaySeq n = min ((2 : ℚ) ^ n) reconnectMaxDelay := by
  induction n with
  | zero => norm_num [delaySeq, reconnectBaseDelay, reconnectMaxDelay]
  | succ n ih =>
      rw [delaySeq, ih, min_mul_of_nonneg _ _ (by norm_num : (0:ℚ) ≤ 2)]
      rw [min_assoc]
      norm_num [reconnectMaxDelay, pow_succ]

theorem delaySeq_le_max (n : ℕ) : delaySeq n ≤ reconnectMaxDelay := by
  rw [delaySeq_closed]
  exact min_le_right _ _

theorem delaySeq_nonneg (n : ℕ) : 0 ≤ delaySeq n := by
  rw [delaySeq_closed]
  refine le_min (by positivity) ?_
  norm_num [reconnectMaxDelay]

/-- C5 (amended): the sleep before the retry that follows the N-th
consecutive connection failure is `min (base * 2 ^ (N - 1)) maxDelay`
(base 1.0 s, max 30.0 s) — the first retry waits the base delay; the added
jitter is at most 50% of that sleep; the delay never decreases across
consecutive failures; a successful reconnect resets the delay to the base. -/
theorem reconnect_backoff_spec :
    (∀ n : ℕ, 1 ≤ n → sleepBeforeRetry n =
      min (reconnectBaseDelay * 2 ^ (n - 1)) reconnectMaxDelay) ∧
    (∀ d r : ℚ, 0 ≤ d → 0 ≤ r → r < 1 → jitterOf d r ≤ d / 2) ∧
    (∀ n : ℕ, delaySeq n ≤ delaySeq (n + 1)) ∧
    delayAfterSuccess = reconnectBaseDelay := by
  refine ⟨?_, ?_, ?_, rfl⟩
  · intro n _
    rw [sleepBeforeRetry, delaySeq_closed, reconnectBaseDelay, one_mul]
  · intro d r hd hr hr1
    have h1 : jitterOf d r = d / 2 * r := by
      rw [jitterOf, reconnectJitterFactor]
      ring
    rw [h1]
    calc d / 2 * r ≤ d / 2 * 1 :=
          mul_le_mul_of_nonneg_left (le_of_lt hr1) (by positivity)
      _ = d / 2 := mul_one _
  · intro n
    rw [delaySeq]
    refine le_min ?_ (delaySeq_le_max n)
    nlinarith [delaySeq_nonneg n]

/-- C5 counterexample: the claim's formula `min (base * 2 ^ N) maxDelay` at
N = 1 gives 2.0 s, but the sleep before the retry that follows the first
consecutive failure is the base delay 1.0 s (alpha_engine.py line 268 sleeps
the current delay and only then doubles it at line 269). -/
theorem reconnect_backoff_claim_counterexample :
    sleepBeforeRetry 1 = 1 ∧
    min (reconnectBaseDelay * 2 ^ (1 : ℕ)) reconnectMaxDelay = 2 ∧
    (1 : ℚ) ≠ 2 := by
  refine ⟨?_, ?_, by norm_num⟩
  · rw [sleepBeforeRetry]
    norm_num [delaySeq, reconnectBaseDelay]
  · rw [reconnectBaseDelay, reconnectMaxDelay]
    norm_num

/-- C5 witness: the amended formula evaluated after three consecutive
failures — the third retry is preceded by a 4-second sleep. -/
theorem reconnect_backoff_spec_witness :
    sleepBeforeRetry 3 =
      min (reconnectBaseDelay * 2 ^ (3 - 1)) reconnectMaxDelay :=
  reconnect_backoff_spec.1 3 (by norm_num)

theorem applyDeltas_lookup (deltas : List (ℤ × ℤ)) (b : BookSide) (p : ℤ) :
    applyDeltas b deltas p =
      match lastEntry deltas p with
      | some q => if q = 0 then none else some q
      | none => b p := by
  induction deltas generalizing b with
  | nil => rfl
  | cons e rest ih =>
      show applyDeltas (applyDeltaEntry b e) rest p = _
      rw [ih]
      show _ = (match lastEntry (e :: rest) p with
        | some q => if q = 0 then none else some q
        | none => b p)
      rw [lastEntry]
      cases lastEntry rest p with
      | some q => rfl
      | none =>
          show applyDeltaEntry b e p = _
          unfold applyDeltaEntry
          by_cases hp : p = e.1
          · by_cases hq : e.2 = 0 <;> simp [hp, hq]
          · have hp2 : ¬ e.1 = p := fun hx => hp hx.symm
            by_cases hq : e.2 = 0 <;> simp [hp, hp2, hq]

theorem lastEntry_mem (deltas : List (ℤ × ℤ)) (p q : ℤ)
    (h : lastEntry deltas p = some q) : (p, q) ∈ deltas := by
  induction deltas with
  | nil => simp [lastEntry] at h
  | cons e rest ih =>
      rw [lastEntry] at h
      cases hrest : lastEntry rest p with
      | some q0 =>
          rw [hrest] at h
          right
          exact ih (hrest.trans (by injection h with h2; rw [h2]))
      | none =>
          rw [hrest] at h
          by_cases hp : e.1 = p
          · rw [if_pos hp] at h
            injection h with h2
            have he : e = (p, q) := by
              obtain ⟨a, b⟩ := e
              simp only at hp h2
              rw [hp, h2]
            rw [he]
            exact List.mem_cons_self _ _
          · rw [if_neg hp] at h
            exact absurd h (by simp)

/-- C6: applying the same delta list twice equals applying it once; a delta
whose surviving entry for a price has quantity 0 removes that level
regardless of its prior state; prices not named in the delta keep their
prior level; and a delta for an instrument with no prior snapshot leaves
the store unchanged. -/
theorem orderbook_delta_spec :
    (∀ (b : BookSide) (deltas : List (ℤ × ℤ)),
      applyDeltas (applyDeltas b deltas) deltas = applyDeltas b deltas) ∧
    (∀ (b : BookSide) (deltas : List (ℤ × ℤ)) (p : ℤ),
      lastEntry deltas p = some 0 → applyDeltas b deltas p = none) ∧
    (∀ (b : BookSide) (deltas : List (ℤ × ℤ)) (p : ℤ),
      (∀ q : ℤ, (p, q) ∉ deltas) → applyDeltas b deltas p = b p) ∧
    (∀ (store : String → Option KalshiBook) (ticker : String)
        (yesDeltas noDeltas : List (ℤ × ℤ)),
      store ticker = none →
      handleDeltaMsg store ticker yesDeltas noDeltas = store) := by
  refine ⟨?_, ?_, ?_, ?_⟩
  · intro b deltas
    funext p
    rw [applyDeltas_lookup, applyDeltas_lookup]
    cases h : lastEntry deltas p with
    | some q => rfl
    | none => rfl
  · intro b deltas p h
    rw [applyDeltas_lookup, h]
    rfl
  · intro b deltas p h
    rw [applyDeltas_lookup]
    cases hl : lastEntry deltas p with
    | some q => exact absurd (lastEntry_mem deltas p q hl) (h q)
    | none => rfl
  · intro store ticker yesDeltas noDeltas h
    unfold handleDeltaMsg
    rw [h]

/-- C6 witness: a quantity-0 delta entry removes price level 3 from a book
that previously held quantity 5 there. -/
theorem orderbook_delta_spec_witness :
    applyDeltas (fun _ => some 5) [((3 : ℤ), (0 : ℤ))] 3 = none :=
  orderbook_delta_spec.2.1 (fun _ => some 5) [((3 : ℤ), (0 : ℤ))] 3 rfl

/-- C7: with no samples in the current minute bucket the projection defaults
to True (assume the strike is met); with samples and a live
settlement-reference venue, the reference price is that first live venue's
price and the result is exactly whether the elapsed-average blended with the
reference price — weighted by elapsed versus remaining seconds — reaches the
strike. -/
theorem settlement_projection_spec :
    (∀ (prices : Exchange → ℚ) (coinbasePrice : ℚ)
        (now strikePrice secondsRemaining : ℚ),
      getSettlementProjection prices coinbasePrice [] now strikePrice
        secondsRemaining = true) ∧
    (∀ (prices : Exchange → ℚ) (coinbasePrice : ℚ)
        (first : ℚ × ℚ) (rest : List (ℚ × ℚ))
        (now strikePrice secondsRemaining : ℚ) (e : Exchange),
      settlementOrder.find? (fun x => decide (0 < prices x)) = some e →
      (settlementRefPrice prices coinbasePrice = prices e ∧
        (getSettlementProjection prices coinbasePrice (first :: rest) now
            strikePrice secondsRemaining = true ↔
          strikePrice ≤
            ((((first :: rest).map Prod.snd).sum
                / (((first :: rest).map Prod.snd).length : ℚ))
                  * max (now - first.1) 1
              + prices e * max secondsRemaining 0)
            / (max (now - first.1) 1 + max secondsRemaining 0)))) := by
  constructor
  · intro prices coinbasePrice now strikePrice secondsRemaining
    rfl
  · intro prices coinbasePrice first rest now strikePrice secondsRemaining e hf
    have href : settlementRefPrice prices coinbasePrice = prices e := by
      unfold settlementRefPrice
      rw [hf]
    have hpos : 0 < prices e := by
      have := List.find?_some hf
      exact of_decide_eq_true this
    refine ⟨href, ?_⟩
    have hE : (1 : ℚ) ≤ max (now - first.1) 1 := le_max_right _ _
    have hR : (0 : ℚ) ≤ max secondsRemaining 0 := le_max_right _ _
    have htot : ¬ (max (now - first.1) 1 + max secondsRemaining 0 ≤ 0) := by
      push_neg
      linarith
    simp only [getSettlementProjection, href]
    rw [if_neg (not_le.mpr hpos), if_neg htot]
    exact decide_eq_true_iff

/-- C7 witness: one sample of 100 recorded 30 seconds ago, all venues at
100, strike 100, 30 seconds remaining — the blend equals 100 and the
projection says the strike is met. -/
theorem settlement_projection_spec_witness :
    getSettlementProjection (fun _ => 100) 100 [(0, 100)] 30 100 30 = true :=
  (settlement_projection_spec.2 (fun _ => 100) 100 (0, 100) [] 30 100 30
      .coinbase (by norm_num [settlementOrder, List.find?])).2.mpr
    (by norm_num)

theorem walk_fst_le (f : ℚ) (quantity : ℤ) (levels : List (ℤ × ℤ)) :
    ∀ filled : ℤ, filled ≤ quantity →
      (walkLevels f quantity levels filled).1 ≤ quantity := by
  induction levels with
  | nil => intro filled h; exact h
  | cons lv rest ih =>
      intro filled h
      obtain ⟨p, q⟩ := lv
      rw [walkLevels]
      split
      · exact h
      · next hfill =>
          refine ih _ ?_
          have h1 : min (max 1 (ratTrunc (q * f))) (quantity - filled) ≤
              quantity - filled := min_le_right _ _
          omega

theorem walk_fst_eq_add_sum (f : ℚ) (quantity : ℤ) (levels : List (ℤ × ℤ)) :
    ∀ filled : ℤ, (walkLevels f quantity levels filled).1 =
      filled + ((walkLevels f quantity levels filled).2.map fun pq => pq.2).sum := by
  induction levels with
  | nil => intro filled; simp [walkLevels]
  | cons lv rest ih =>
      intro filled
      obtain ⟨p, q⟩ := lv
      rw [walkLevels]
      split
      · simp
      · simp only [List.map_cons, List.sum_cons]
        rw [ih]
        ring

theorem walk_take_pos (f : ℚ) (quantity : ℤ) (levels : List (ℤ × ℤ)) :
    ∀ filled : ℤ, ∀ pq ∈ (walkLevels f quantity levels filled).2, 1 ≤ pq.2 := by
  induction levels with
  | nil => intro filled pq h; simp [walkLevels] at h
  | cons lv rest ih =>
      intro filled pq h
      obtain ⟨p, q⟩ := lv
      rw [walkLevels] at h
      split at h
      · simp at h
      · next hfill =>
          simp only [List.mem_cons] at h
          rcases h with h | h
          · rw [h]
            have h1 : (1 : ℤ) ≤ max 1 (ratTrunc (q * f)) := le_max_left _ _
            have h2 : filled < quantity := lt_of_not_le hfill
            simp only
            omega
          · exact ih _ pq h

theorem walk_price_mem (f : ℚ) (quantity : ℤ) (levels : List (ℤ × ℤ)) :
    ∀ filled : ℤ, ∀ pq ∈ (walkLevels f quantity levels filled).2,
      ∃ q0 : ℤ, (pq.1, q0) ∈ levels := by
  induction levels with
  | nil => intro filled pq h; simp [walkLevels] at h
  | cons lv rest ih =>
      intro filled pq h
      obtain ⟨p, q⟩ := lv
      rw [walkLevels] at h
      split at h
      · simp at h
      · simp only [List.mem_cons] at h
        rcases h with h | h
        · exact ⟨q, by rw [h]; exact List.mem_cons_self _ _⟩
        · obtain ⟨q0, hq0⟩ := ih _ pq h
          exact ⟨q0, List.mem_cons_of_mem _ hq0⟩

theorem walk_forall2 (f : ℚ) (quantity : ℤ) (levels : List (ℤ × ℤ)) :
    ∀ filled : ℤ,
      List.Forall₂ (fun pq lv => pq.1 = lv.1 ∧ pq.2 ≤ max 1 (ratTrunc (lv.2 * f)))
        (walkLevels f quantity levels filled).2
        (levels.take (walkLevels f quantity levels filled).2.length) := by
  induction levels with
  | nil => intro filled; simp [walkLevels]
  | cons lv rest ih =>
      intro filled
      obtain ⟨p, q⟩ := lv
      rw [walkLevels]
      split
      · simp
      · simp only [List.length_cons, List.take_succ_cons]
        exact List.Forall₂.cons ⟨rfl, min_le_left _ _⟩ (ih _)

theorem crossing_price (ob : Orderbook) (action : OrderAction) (side : Side)
    (limit : ℤ) :
    ∀ pq ∈ crossingLevels ob action side limit, fillPriceOk action limit pq.1 := by
  intro pq h
  cases action <;> cases side <;>
    simp only [crossingLevels, List.mem_map, List.mem_filter,
      decide_eq_true_eq] at h
  · obtain ⟨raw, ⟨_, hc⟩, heq⟩ := h
    rw [← heq]
    show 100 - raw.1 ≤ limit
    omega
  · obtain ⟨raw, ⟨_, hc⟩, heq⟩ := h
    rw [← heq]
    show 100 - raw.1 ≤ limit
    omega
  · exact h.2
  · exact h.2

theorem crossing_empty (ob : Orderbook) (action : OrderAction) (side : Side)
    (limit : ℤ)
    (h : ∀ pq ∈ rawLevels ob action side, ¬ rawLevelCrosses action limit pq.1) :
    crossingLevels ob action side limit = [] := by
  cases action <;> cases side <;>
    simp only [crossingLevels, List.map_eq_nil_iff, List.filter_eq_nil_iff] <;>
    intro pq hm <;>
    have hx := h pq hm <;>
    simp only [rawLevelCrosses] at hx <;>
    simp only [decide_eq_true_eq] <;>
    omega

/-- C2: the simulated fill never exceeds the requested quantity, every fill
is at a converted price that crosses the requested limit (at most the limit
for buys, at least the limit for sells), and the filled quantity is 0
whenever no level of the consumed book side crosses the limit. -/
theorem simulate_fill_spec (f : ℚ) (ob : Orderbook) (action : OrderAction)
    (side : Side) (limit quantity : ℤ) (hq : 0 ≤ quantity) :
    (simulateFill f ob action side limit quantity).1 ≤ quantity ∧
    (∀ pq ∈ (simulateFill f ob action side limit quantity).2.2,
      fillPriceOk action limit pq.1) ∧
    ((∀ pq ∈ rawLevels ob action side, ¬ rawLevelCrosses action limit pq.1) →
      (simulateFill f ob action side limit quantity).1 = 0) := by
  refine ⟨?_, ?_, ?_⟩
  · simp only [simulateFill]
    split
    · exact hq
    · exact walk_fst_le f quantity _ 0 hq
  · intro pq h
    simp only [simulateFill] at h
    split at h
    · simp at h
    · obtain ⟨q0, hmem⟩ := walk_price_mem f quantity _ 0 pq h
      have hs : (pq.1, q0) ∈ crossingLevels ob action side limit := by
        have := hmem
        unfold sortedLevels at this
        cases action
        · exact (mem_sortStable _ _ _).mp this
        · exact (mem_sortStable _ _ _).mp this
      have := crossing_price ob action side limit (pq.1, q0) hs
      exact this
  · intro h
    have hc : crossingLevels ob action side limit = [] :=
      crossing_empty ob action side limit h
    have hs : sortedLevels ob action side limit = [] := by
      unfold sortedLevels
      cases action <;> rw [hc] <;> rfl
    simp only [simulateFill]
    rw [hs]
    rfl

/-- C2 witness: the spec scenario — book NO side [(45, 10)], limit buy YES
at 60 converts to one level at 55 which crosses; the fill of 5 does not
exceed the request and every fill price is at most the limit. -/
theorem simulate_fill_spec_witness :
    (simulateFill 1 ⟨[], [(45, 10)]⟩ .buy .yes 60 5).1 ≤ 5 ∧
    ∀ pq ∈ (simulateFill 1 ⟨[], [(45, 10)]⟩ .buy .yes 60 5).2.2,
      fillPriceOk .buy 60 pq.1 :=
  ⟨(simulate_fill_spec 1 ⟨[], [(45, 10)]⟩ .buy .yes 60 5 (by decide)).1,
   (simulate_fill_spec 1 ⟨[], [(45, 10)]⟩ .buy .yes 60 5 (by decide)).2.1⟩

/-- C9 (amended): every fill taken by `_simulate_fill` corresponds
positionally to a consumed level of the sorted crossing levels, at that
level's price, and its quantity is at most
`max 1 (int (levelQty * fillFraction))` — i.e. at most `fillFraction` of the
level's resting quantity rounded down, except that at least one contract is
always taken from a consumed level (the `max(1, ...)` floor at trader.py
line 421). -/
theorem fill_fraction_cap (f : ℚ) (ob : Orderbook) (action : OrderAction)
    (side : Side) (limit quantity : ℤ) :
    List.Forall₂
      (fun pq lv => pq.1 = lv.1 ∧ pq.2 ≤ max 1 (ratTrunc (lv.2 * f)))
      (simulateFill f ob action side limit quantity).2.2
      ((sortedLevels ob action side limit).take
        (simulateFill f ob action side limit quantity).2.2.length) := by
  simp only [simulateFill]
  split
  · simp
  · exact walk_forall2 f quantity _ 0

/-- C9 counterexample: with `PAPER_FILL_FRACTION = 0.5` (inside the
configured range [0.05, 1.0]) and one crossing YES level of resting
quantity 1, the sell consumes 1 contract from that level, which exceeds
`fillFraction * quantity = 0.5`; so a consumed level's take is not always
at most `fillFraction` of its resting quantity. -/
theorem fill_fraction_cap_counterexample :
    (simulateFill (1/2) ⟨[(50, 1)], []⟩ .sell .yes 40 5).2.2 = [(50, 1)] ∧
    (1 / 2 : ℚ) * 1 < 1 := by
  constructor
  · norm_num [simulateFill, sortedLevels, crossingLevels, sortStable,
      insertStable, walkLevels, ratTrunc, pyRound, Rat.floor]
  · norm_num

theorem simulateFill_avg_ge_one (f : ℚ) (ob : Orderbook)
    (action : OrderAction) (side : Side) (limit quantity : ℤ)
    (hfill : (simulateFill f ob action side limit quantity).1 ≠ 0)
    (hp : ∀ pq ∈ (simulateFill f ob action side limit quantity).2.2, 1 ≤ pq.1) :
    1 ≤ (simulateFill f ob action side limit quantity).2.1 := by
  revert hfill hp
  simp only [simulateFill]
  split
  · next h => intro hfill; exact absurd rfl hfill
  · next h =>
      intro hfill hp
      set w := walkLevels f quantity (sortedLevels ob action side limit) 0 with hw
      have htakes : ∀ pq ∈ w.2, 1 ≤ pq.2 := walk_take_pos f quantity _ 0
      have hsum : w.1 = (w.2.map fun pq => pq.2).sum := by
        have := walk_fst_eq_add_sum f quantity (sortedLevels ob action side limit) 0
        rw [← hw] at this
        omega
      have hw1pos : 0 < w.1 := by
        rcases lt_trichotomy w.1 0 with hlt | heq | hgt
        · exfalso
          have : 0 ≤ (w.2.map fun pq => pq.2).sum :=
            List.sum_nonneg (by
              intro a ha
              obtain ⟨pq, hpq, rfl⟩ := List.mem_map.mp ha
              exact le_trans (by norm_num) (htakes pq hpq))
          omega
        · exact absurd heq h
        · exact hgt
      have hcast : (((w.2.map fun pq => pq.2).sum : ℤ) : ℚ) =
          (w.2.map fun pq => (pq.2 : ℚ)).sum := by
        rw [Int.cast_list_sum, List.map_map]
        rfl
      have hS : (((w.2.map fun pq => pq.2).sum : ℤ) : ℚ) ≤
          (w.2.map fun pq => (pq.1 * pq.2 : ℚ)).sum := by
        rw [hcast]
        refine List.sum_le_sum ?_
        intro pq hpq
        have h1 : (1 : ℚ) ≤ (pq.1 : ℚ) := by exact_mod_cast hp pq hpq
        have h2 : (0 : ℚ) ≤ (pq.2 : ℚ) := by
          have := htakes pq hpq
          exact_mod_cast le_trans (by norm_num) this
        calc (pq.2 : ℚ) = 1 * pq.2 := (one_mul _).symm
          _ ≤ (pq.1 : ℚ) * pq.2 := mul_le_mul_of_nonneg_right h1 h2
      refine one_le_pyRound _ ?_
      rw [le_div_iff₀ (by exact_mod_cast hw1pos), one_mul]
      calc (w.1 : ℚ) = (((w.2.map fun pq => pq.2).sum : ℤ) : ℚ) := by
            exact_mod_cast hsum
        _ ≤ _ := hS

/-- C10: if the paper balance is non-negative before a simulated paper buy
and every consumed price level is priced at least 1 cent, the balance is
still non-negative after `_paper_place_order`; when the cost of the
simulated fill exceeds the balance the filled quantity is reduced to the
affordable amount `int(balance * 100 / avg_price)`; and when nothing is
affordable the order is rejected with balance and positions unchanged. -/
theorem paper_place_order_spec (f : ℚ) (ob : Orderbook) (side : Side)
    (price quantity : ℤ) (balance : ℚ) (pos : Option PaperPos)
    (hbal : 0 ≤ balance)
    (hp : ∀ pq ∈ (simulateFill f ob .buy side price quantity).2.2, 1 ≤ pq.1) :
    0 ≤ (paperPlaceOrder f ob side price quantity balance pos).balance ∧
    ((simulateFill f ob .buy side price quantity).1 ≠ 0 →
      balance < ((simulateFill f ob .buy side price quantity).2.1 : ℚ) *
        ((simulateFill f ob .buy side price quantity).1 : ℚ) / 100 →
      0 < ratTrunc (balance * 100 /
        ((simulateFill f ob .buy side price quantity).2.1 : ℚ)) →
      ∃ o : OrderResult,
        (paperPlaceOrder f ob side price quantity balance pos).result = some o ∧
        o.filledCount = ratTrunc (balance * 100 /
          ((simulateFill f ob .buy side price quantity).2.1 : ℚ))) ∧
    ((simulateFill f ob .buy side price quantity).1 ≠ 0 →
      balance < ((simulateFill f ob .buy side price quantity).2.1 : ℚ) *
        ((simulateFill f ob .buy side price quantity).1 : ℚ) / 100 →
      ratTrunc (balance * 100 /
        ((simulateFill f ob .buy side price quantity).2.1 : ℚ)) ≤ 0 →
      (paperPlaceOrder f ob side price quantity balance pos).result = none ∧
      (paperPlaceOrder f ob side price quantity balance pos).balance = balance ∧
      (paperPlaceOrder f ob side price quantity balance pos).pos = pos) := by
  by_cases hfill : (simulateFill f ob .buy side price quantity).1 = 0
  · refine ⟨?_, ?_, ?_⟩
    · simp only [paperPlaceOrder]
      rw [if_pos hfill]
      exact hbal
    · intro h; exact absurd hfill h
    · intro h; exact absurd hfill h
  · have havg : 1 ≤ (simulateFill f ob .buy side price quantity).2.1 :=
      simulateFill_avg_ge_one f ob .buy side price quantity hfill hp
    have havgQ : (1 : ℚ) ≤ ((simulateFill f ob .buy side price quantity).2.1 : ℚ) := by
      exact_mod_cast havg
    have havgpos : (0 : ℚ) < ((simulateFill f ob .buy side price quantity).2.1 : ℚ) :=
      lt_of_lt_of_le (by norm_num) havgQ
    have havgposZ : (0 : ℤ) < (simulateFill f ob .buy side price quantity).2.1 := by
      exact_mod_cast havgpos
    by_cases hcost : balance <
        ((simulateFill f ob .buy side price quantity).2.1 : ℚ) *
          ((simulateFill f ob .buy side price quantity).1 : ℚ) / 100
    · by_cases haff : ratTrunc (balance * 100 /
          ((simulateFill f ob .buy side price quantity).2.1 : ℚ)) ≤ 0
      · refine ⟨?_, ?_, ?_⟩
        · simp only [paperPlaceOrder]
          rw [if_neg hfill, if_pos hcost, if_pos havgposZ, if_pos haff]
          exact hbal
        · intro _ _ hpos
          exact absurd haff (not_le.mpr hpos)
        · intro _ _ _
          simp only [paperPlaceOrder]
          rw [if_neg hfill, if_pos hcost, if_pos havgposZ, if_pos haff]
          exact ⟨rfl, rfl, rfl⟩
      · have haffpos : 0 < ratTrunc (balance * 100 /
            ((simulateFill f ob .buy side price quantity).2.1 : ℚ)) :=
          lt_of_not_le haff
        have hargnn : 0 ≤ balance * 100 /
            ((simulateFill f ob .buy side price quantity).2.1 : ℚ) :=
          div_nonneg (mul_nonneg hbal (by norm_num)) (le_of_lt havgpos)
        have haffle : (ratTrunc (balance * 100 /
            ((simulateFill f ob .buy side price quantity).2.1 : ℚ)) : ℚ) ≤
            balance * 100 / ((simulateFill f ob .buy side price quantity).2.1 : ℚ) := by
          rw [ratTrunc_eq_intFloor _ hargnn]
          exact Int.floor_le _
        have hcost2 : ((simulateFill f ob .buy side price quantity).2.1 : ℚ) *
            (ratTrunc (balance * 100 /
              ((simulateFill f ob .buy side price quantity).2.1 : ℚ)) : ℚ) / 100 ≤
            balance := by
          rw [div_le_iff₀ (by norm_num : (0:ℚ) < 100)]
          calc ((simulateFill f ob .buy side price quantity).2.1 : ℚ) *
              (ratTrunc (balance * 100 /
                ((simulateFill f ob .buy side price quantity).2.1 : ℚ)) : ℚ)
              ≤ ((simulateFill f ob .buy side price quantity).2.1 : ℚ) *
                (balance * 100 / ((simulateFill f ob .buy side price quantity).2.1 : ℚ)) :=
                mul_le_mul_of_nonneg_left haffle (le_of_lt havgpos)
            _ = balance * 100 := mul_div_cancel₀ _ (ne_of_gt havgpos)
        refine ⟨?_, ?_, ?_⟩
        · simp only [paperPlaceOrder]
          rw [if_neg hfill, if_pos hcost, if_pos havgposZ, if_neg haff]
          simp only
          linarith
        · intro _ _ _
          simp only [paperPlaceOrder]
          rw [if_neg hfill, if_pos hcost, if_pos havgposZ, if_neg haff]
          exact ⟨_, rfl, rfl⟩
        · intro _ _ hle
          exact absurd hle haff
    · have hc2 : ((simulateFill f ob .buy side price quantity).2.1 : ℚ) *
          ((simulateFill f ob .buy side price quantity).1 : ℚ) / 100 ≤ balance :=
        le_of_not_lt hcost
      refine ⟨?_, ?_, ?_⟩
      · simp only [paperPlaceOrder]
        rw [if_neg hfill, if_neg hcost]
        simp only
        linarith
      · intro _ hlt
        exact absurd hlt hcost
      · intro _ hlt
        exact absurd hlt hcost

/-- C10 witness: balance $0.40, one NO level at 40 cents (YES equivalent
60 cents, depth 10), buy 2 YES at limit 70 — the fill of 2 would cost $1.20,
nothing is affordable (0.4*100/60 truncates to 0), so the order is rejected
and balance and position are unchanged. -/
theorem paper_place_order_spec_witness :
    (paperPlaceOrder 1 ⟨[], [(40, 10)]⟩ .yes 70 2 (2/5) none).result = none ∧
    (paperPlaceOrder 1 ⟨[], [(40, 10)]⟩ .yes 70 2 (2/5) none).balance = 2/5 ∧
    (paperPlaceOrder 1 ⟨[], [(40, 10)]⟩ .yes 70 2 (2/5) none).pos = none := by
  have hsim : simulateFill 1 ⟨[], [(40, 10)]⟩ .buy .yes 70 2 = (2, 60, [(60, 2)]) := by
    norm_num [simulateFill, sortedLevels, crossingLevels, sortStable,
      insertStable, walkLevels, ratTrunc, pyRound, Rat.floor]
  refine (paper_place_order_spec 1 ⟨[], [(40, 10)]⟩ .yes 70 2 (2/5) none
    (by norm_num) ?_).2.2 ?_ ?_ ?_
  · rw [hsim]
    intro pq h
    simp only [List.mem_singleton] at h
    rw [h]
    norm_num
  · rw [hsim]
    norm_num
  · rw [hsim]
    norm_num
  · rw [hsim]
    norm_num [ratTrunc, Rat.floor]

/-- C1: within a single decision cycle on a held position at most one exit
rule fires, and the rule that fires is the first eligible one in the fixed
priority order hold-to-expiry > stop-loss > edge-exit > hit-and-run >
profit-take > free-roll: inside the hold-to-expiry window no sell is placed
regardless of the other rules, any fired rule excludes every
higher-priority rule from being eligible, and a position simultaneously
eligible for stop-loss and profit-take fires stop-loss (hence not
profit-take, since the cycle returns after one exit). -/
theorem exit_cascade_spec (i : CycleInput) :
    (i.secsLeft < i.holdExpirySecs → exitDecision i = none) ∧
    (∀ r : ExitRule, exitDecision i = some r →
      eligibleFor i r ∧
        ∀ r2 : ExitRule, priorityOf r2 < priorityOf r → ¬ eligibleFor i r2) ∧
    (i.posQty ≠ 0 → i.tradingEnabled = true →
      i.holdExpirySecs ≤ i.secsLeft → stopLossElig i → profitTakeElig i →
      exitDecision i = some .stopLoss) := by
  refine ⟨?_, ?_, ?_⟩
  · intro h
    unfold exitDecision
    by_cases hg : i.posQty = 0 ∨ i.tradingEnabled = false
    · rw [if_pos hg]
    · rw [if_neg hg, if_pos h]
  · intro r h
    unfold exitDecision at h
    split_ifs at h with h1 h2 h3 h4 h5 h6 h7
    · injection h with h0
      rw [← h0]
      exact ⟨h3, fun r2 hlt => by cases r2 <;> simp [priorityOf] at hlt⟩
    · injection h with h0
      rw [← h0]
      refine ⟨h4, fun r2 hlt => ?_⟩
      cases r2 <;> simp only [priorityOf] at hlt <;> first
        | exact h3
        | omega
    · injection h with h0
      rw [← h0]
      refine ⟨h5, fun r2 hlt => ?_⟩
      cases r2 <;> simp only [priorityOf] at hlt <;> first
        | exact h3
        | exact h4
        | omega
    · injection h with h0
      rw [← h0]
      refine ⟨h6, fun r2 hlt => ?_⟩
      cases r2 <;> simp only [priorityOf] at hlt <;> first
        | exact h3
        | exact h4
        | exact h5
        | omega
    · injection h with h0
      rw [← h0]
      refine ⟨h7, fun r2 hlt => ?_⟩
      cases r2 <;> simp only [priorityOf] at hlt <;> first
        | exact h3
        | exact h4
        | exact h5
        | exact h6
        | omega
  · intro h0 h1 h2 hsl _
    unfold exitDecision
    rw [if_neg, if_neg (not_lt.mpr h2), if_pos hsl]
    push_neg
    exact ⟨h0, by simp [h1]⟩

/-- C1 witness: on `cycleInputBoth` both stop-loss (loss 20c >= 15c) and
profit-take (gain -40% >= -50%, 301s > 300s) are eligible, and the cycle
fires stop-loss. -/
theorem exit_cascade_spec_witness :
    exitDecision cycleInputBoth = some .stopLoss :=
  (exit_cascade_spec cycleInputBoth).2.2 (by norm_num [cycleInputBoth])
    rfl (by norm_num [cycleInputBoth])
    (by norm_num [cycleInputBoth, stopLossElig, lossPerContract,
      markToMarketExit])
    (by norm_num [cycleInputBoth, profitTakeElig, gainPctOf, avgCostOf,
      sellPriceOf])

theorem chaseGo_length (side : Side) (envs : ℕ → ChaseEnv) :
    ∀ (fuel attempt : ℕ) (r : ℤ),
      (chaseGo side envs fuel attempt r).length ≤ fuel := by
  intro fuel
  induction fuel with
  | zero => intro attempt r; simp [chaseGo]
  | succ fuel ih =>
      intro attempt r
      rw [chaseGo]
      simp only [List.length_cons]
      cases hres : (envs attempt).result with
      | none => simp
      | some fr =>
          simp only
          split
          · simp
          · have := ih (attempt + 1) fr.2
            simpa using Nat.succ_le_succ this

theorem chaseGo_mem (side : Side) (envs : ℕ → ChaseEnv) :
    ∀ (fuel attempt : ℕ) (r : ℤ), ∀ a ∈ chaseGo side envs fuel attempt r,
      a.sleepSecs = 1 ∧ attempt ≤ a.attempt ∧ a.attempt < attempt + fuel ∧
      a.price = retryPrice side a.attempt (envs a.attempt).curBid
        (envs a.attempt).curAsk := by
  intro fuel
  induction fuel with
  | zero => intro attempt r a ha; simp [chaseGo] at ha
  | succ fuel ih =>
      intro attempt r a ha
      rw [chaseGo] at ha
      simp only [List.mem_cons] at ha
      rcases ha with ha | ha
      · rw [ha]
        refine ⟨rfl, le_refl _, ?_, rfl⟩
        show attempt < attempt + (fuel + 1)
        omega
      · cases hres : (envs attempt).result with
        | none => rw [hres] at ha; simp at ha
        | some fr =>
            rw [hres] at ha
            simp only at ha
            split at ha
            · simp at ha
            · obtain ⟨h1, h2, h3, h4⟩ := ih (attempt + 1) fr.2 a ha
              exact ⟨h1, by omega, by omega, h4⟩

/-- C8: the fill chase after a non-aggressive, not fully filled order does
at most 3 retries, each preceded by a 1-second sleep and priced from the
freshly re-fetched book of that attempt via the midpoint / two-thirds /
full-cross escalation clamped to [1, 99]; a fully filled initial order is
not chased; and aggressive spread-crossing orders (extreme momentum or
alpha override) skip the chase entirely. -/
theorem fill_chase_spec :
    (∀ orderPlaced extremeMomentum alphaOverride : Bool,
      extremeMomentum = true ∨ alphaOverride = true →
      runsFillChase orderPlaced extremeMomentum alphaOverride = false) ∧
    (∀ (side : Side) (r : ℤ) (envs : ℕ → ChaseEnv),
      (waitAndRetry side r envs).length ≤ 3) ∧
    (∀ (side : Side) (r : ℤ) (envs : ℕ → ChaseEnv),
      r ≤ 0 → waitAndRetry side r envs = []) ∧
    (∀ (side : Side) (r : ℤ) (envs : ℕ → ChaseEnv),
      ∀ a ∈ waitAndRetry side r envs,
        a.sleepSecs = 1 ∧ 1 ≤ a.attempt ∧ a.attempt ≤ 3 ∧
        a.price = retryPrice side a.attempt (envs a.attempt).curBid
          (envs a.attempt).curAsk) ∧
    (∀ curBid curAsk : ℤ,
      retryPrice .yes 1 curBid curAsk =
        max 1 (min 99 (Int.fdiv (curBid + curAsk + 1) 2)) ∧
      retryPrice .yes 2 curBid curAsk =
        max 1 (min 99 (curBid + Int.fdiv ((curAsk - curBid) * 2) 3)) ∧
      (1 ≤ curAsk → curAsk ≤ 99 → retryPrice .yes 3 curBid curAsk = curAsk)) := by
  refine ⟨?_, ?_, ?_, ?_, ?_⟩
  · intro orderPlaced em ao h
    rcases h with h | h <;> rw [h] <;> simp [runsFillChase]
  · intro side r envs
    unfold waitAndRetry
    split
    · simp
    · exact chaseGo_length side envs 3 1 r
  · intro side r envs h
    unfold waitAndRetry
    rw [if_pos h]
  · intro side r envs a ha
    unfold waitAndRetry at ha
    split at ha
    · simp at ha
    · obtain ⟨h1, h2, h3, h4⟩ := chaseGo_mem side envs 3 1 r a ha
      exact ⟨h1, h2, by omega, h4⟩
  · intro curBid curAsk
    refine ⟨rfl, rfl, ?_⟩
    intro h1 h2
    show max 1 (min 99 curAsk) = curAsk
    rw [min_eq_right h2, max_eq_right h1]

/-- C8 witness: an extreme-momentum order skips the chase. -/
theorem fill_chase_spec_witness :
    runsFillChase true true false = false :=
  fill_chase_spec.1 true true false (Or.inl rfl)

theorem logistic_denom_pos (k z : ℝ) : 0 < 1 + Real.exp (-k * z) := by
  have := Real.exp_pos (-k * z)
  linarith

theorem logistic_mono (k z1 z2 : ℝ) (hk : 0 < k) (h : z1 ≤ z2) :
    logisticProb k z1 ≤ logisticProb k z2 := by
  unfold logisticProb
  have hexp : Real.exp (-k * z2) ≤ Real.exp (-k * z1) := by
    apply Real.exp_le_exp.mpr
    nlinarith
  exact one_div_le_one_div_of_le (logistic_denom_pos k z2) (by linarith)

theorem logistic_strict_mono (k z1 z2 : ℝ) (hk : 0 < k) (h : z1 < z2) :
    logisticProb k z1 < logisticProb k z2 := by
  unfold logisticProb
  have hexp : Real.exp (-k * z2) < Real.exp (-k * z1) := by
    apply Real.exp_lt_exp.mpr
    nlinarith
  exact one_div_lt_one_div_of_lt (logistic_denom_pos k z2) (by linarith)

theorem logistic_ge_half (k z : ℝ) (h : 0 ≤ k * z) : 1/2 ≤ logisticProb k z := by
  unfold logisticProb
  have hexp : Real.exp (-k * z) ≤ 1 := by
    rw [show (1:ℝ) = Real.exp 0 from Real.exp_zero.symm]
    apply Real.exp_le_exp.mpr
    linarith
  have hp := logistic_denom_pos k z
  rw [le_div_iff₀ hp]
  linarith

theorem logistic_lt_upper (k z : ℝ) (h : k * z < 98/99) :
    logisticProb k z < 99/100 := by
  unfold logisticProb
  have hexp : 1/99 < Real.exp (-k * z) := by
    have h2 : -k * z + 1 ≤ Real.exp (-k * z) := Real.add_one_le_exp _
    nlinarith
  have hp := logistic_denom_pos k z
  rw [div_lt_iff₀ hp]
  linarith

theorem clampProb_range (p : ℝ) :
    1/100 ≤ clampProb p ∧ clampProb p ≤ 99/100 := by
  unfold clampProb
  constructor
  · exact le_max_left _ _
  · exact max_le (by norm_num) (min_le_left _ _)

theorem clampProb_mono (p q : ℝ) (h : p ≤ q) : clampProb p ≤ clampProb q :=
  max_le_max (le_refl _) (min_le_min (le_refl _) h)

theorem clampProb_id (p : ℝ) (h1 : 1/100 ≤ p) (h2 : p ≤ 99/100) :
    clampProb p = p := by
  unfold clampProb
  rw [min_eq_right h2, max_eq_right h1]

/-- C4 (amended): `get_fair_value` always returns a `fair_yes_prob` in
[0.01, 0.99]; and holding the realized 5-minute volatility, the contract
elapsed/remaining times, the settlement-bucket history AND the consensus
price fixed (the consensus price also scales the dollar volatility), the
probability is monotonically nondecreasing in the
(projected settlement - strike) distance, i.e. antitone in the strike. -/
theorem fair_value_spec :
    (∀ (k gwp strike secondsRemaining : ℝ) (sp lsp : List ℝ)
        (cst now vol : ℝ),
      1/100 ≤ fairYesProb k gwp strike secondsRemaining sp lsp cst now vol ∧
      fairYesProb k gwp strike secondsRemaining sp lsp cst now vol ≤ 99/100) ∧
    (∀ (k gwp strike1 strike2 secondsRemaining : ℝ) (sp lsp : List ℝ)
        (cst now vol : ℝ),
      0 < k → 0 < gwp → 0 < strike2 → strike2 ≤ strike1 →
      fairYesProb k gwp strike1 secondsRemaining sp lsp cst now vol ≤
        fairYesProb k gwp strike2 secondsRemaining sp lsp cst now vol) := by
  constructor
  · intro k gwp strike secondsRemaining sp lsp cst now vol
    unfold fairYesProb
    split
    · norm_num
    · exact clampProb_range _
  · intro k gwp strike1 strike2 secondsRemaining sp lsp cst now vol
      hk hg hs2 hs12
    have hs1 : 0 < strike1 := lt_of_lt_of_le hs2 hs12
    unfold fairYesProb
    rw [if_neg (by push_neg; exact ⟨hg, hs1⟩), if_neg (by push_neg; exact ⟨hg, hs2⟩)]
    refine clampProb_mono _ _ ?_
    refine logistic_mono k _ _ hk ?_
    have hdv : 0 < fvDollarVol gwp vol secondsRemaining :=
      lt_of_lt_of_le (by norm_num) (le_max_right _ _)
    have hd : fvSettlementVsStrike gwp strike1 secondsRemaining sp lsp cst now ≤
        fvSettlementVsStrike gwp strike2 secondsRemaining sp lsp cst now := by
      unfold fvSettlementVsStrike
      linarith
    exact div_le_div_of_nonneg_right hd (le_of_lt hdv)

/-- C4 witness: the amended monotonicity applied with the strike lowered
from 2 to 1 at consensus 10 with one settlement sample. -/
theorem fair_value_spec_witness :
    fairYesProb 1 10 2 5 [10] [] 1 6 1 ≤ fairYesProb 1 10 1 5 [10] [] 1 6 1 :=
  fair_value_spec.2 1 10 2 1 5 [10] [] 1 6 1 (by norm_num) (by norm_num)
    (by norm_num) (by norm_num)

theorem fvCurrentWeight_eval : fvCurrentWeight (5:ℝ) 1 6 = 4/5 := by
  unfold fvCurrentWeight
  rw [max_eq_left (by norm_num : (1:ℝ) ≤ 6 - 1)]
  rw [min_eq_right (by norm_num : (5:ℝ) / (6 - 1 + 5) + 3/10 ≤ 85/100)]
  norm_num

theorem fvAvgSettlement_eval (gwp : ℝ) (lsp : List ℝ) :
    fvAvgSettlement gwp [10] lsp = 10 := by
  unfold fvAvgSettlement
  norm_num

theorem fvProjected_eval_a : fvProjected (10:ℝ) 10 5 1 6 = 10 := by
  unfold fvProjected
  rw [if_pos ⟨by norm_num, by norm_num⟩, fvCurrentWeight_eval]
  norm_num

theorem fvProjected_eval_b : fvProjected (100:ℝ) 10 5 1 6 = 82 := by
  unfold fvProjected
  rw [if_pos ⟨by norm_num, by norm_num⟩, fvCurrentWeight_eval]
  norm_num

theorem fvDistance_eval_a :
    fvSettlementVsStrike (10:ℝ) 1 5 [10] [] 1 6 = 9 := by
  unfold fvSettlementVsStrike
  rw [fvAvgSettlement_eval, fvProjected_eval_a]
  norm_num

theorem fvDistance_eval_b :
    fvSettlementVsStrike (100:ℝ) 1 5 [10] [] 1 6 = 81 := by
  unfold fvSettlementVsStrike
  rw [fvAvgSettlement_eval, fvProjected_eval_b]
  norm_num

theorem fvSqrt_eval : Real.sqrt (max (5:ℝ) 1 / 5) = 1 := by
  rw [max_eq_left (by norm_num : (1:ℝ) ≤ 5)]
  norm_num [Real.sqrt_one]

theorem fvDollarVol_eval_a : fvDollarVol (10:ℝ) 1 5 = 10 := by
  unfold fvDollarVol
  rw [if_pos (by norm_num : (0:ℝ) < 1), fvSqrt_eval]
  rw [max_eq_left (by norm_num : (1:ℝ) ≤ 10 * 1 * 1)]
  norm_num

theorem fvDollarVol_eval_b : fvDollarVol (100:ℝ) 1 5 = 100 := by
  unfold fvDollarVol
  rw [if_pos (by norm_num : (0:ℝ) < 1), fvSqrt_eval]
  rw [max_eq_left (by norm_num : (1:ℝ) ≤ 100 * 1 * 1)]
  norm_num

theorem fairYesProb_eval_a :
    fairYesProb (6/10) 10 1 5 [10] [] 1 6 1 = logisticProb (6/10) (9/10) := by
  unfold fairYesProb
  rw [if_neg (by push_neg; norm_num)]
  rw [fvDistance_eval_a, fvDollarVol_eval_a]
  refine clampProb_id _ ?_ ?_
  · refine le_trans (by norm_num) (logistic_ge_half _ _ ?_)
    norm_num
  · exact le_of_lt (logistic_lt_upper _ _ (by norm_num))

theorem fairYesProb_eval_b :
    fairYesProb (6/10) 100 1 5 [10] [] 1 6 1 = logisticProb (6/10) (81/100) := by
  unfold fairYesProb
  rw [if_neg (by push_neg; norm_num)]
  rw [fvDistance_eval_b, fvDollarVol_eval_b]
  refine clampProb_id _ ?_ ?_
  · refine le_trans (by norm_num) (logistic_ge_half _ _ ?_)
    norm_num
  · exact le_of_lt (logistic_lt_upper _ _ (by norm_num))

/-- C4 counterexample: two states that agree on the realized 5-minute
volatility (1), the contract elapsed/remaining times (elapsed 5 s,
remaining 5 s) and the settlement-bucket history ([10]) but differ in the
consensus price (10 versus 100, with the default steepness k = 0.6 and
strike 1). The second state has a strictly larger
(projected settlement - strike) distance (81 versus 9), yet a strictly
smaller fair_yes_prob — the consensus price also scales the dollar
volatility, so fair_yes_prob is not monotone in the distance when only
volatility, times and history are held fixed. -/
theorem fair_value_claim_counterexample :
    fvSettlementVsStrike (10:ℝ) 1 5 [10] [] 1 6 <
      fvSettlementVsStrike (100:ℝ) 1 5 [10] [] 1 6 ∧
    fairYesProb (6/10) 100 1 5 [10] [] 1 6 1 <
      fairYesProb (6/10) 10 1 5 [10] [] 1 6 1 := by
  constructor
  · rw [fvDistance_eval_a, fvDistance_eval_b]
    norm_num
  · rw [fairYesProb_eval_a, fairYesProb_eval_b]
    exact logistic_strict_mono _ _ _ (by norm_num) (by norm_num)
